import Mathlib

/-!
Verification of the synthtool metadata tracking and obsolete-file
reconciliation engine (synthtool/metadata.py and
synthtool/metadata_tracker.py), as a shallow embedding.

External collaborators are abstracted as parameters:
the git check-ignore tool output becomes a predicate on normalized paths,
os.unlink becomes a function returning a deletion outcome, the filesystem
read becomes an optional file content, json parsing becomes a fallible
parse function, and the git log subprocess becomes a function from
(local path, old sha) to log text.  Proto3 string fields default to the
empty string; clearing a field sets it back to the empty string.
-/

namespace Synthtool

/-- A git source record (message GitSource of metadata_pb2), as used by
metadata.py and metadata_tracker.py.  All fields are proto3 strings that
default to the empty string. -/
structure GitSource where
  name : String := ""
  remote : String := ""
  sha : String := ""
  local_path : String := ""
  log : String := ""
deriving DecidableEq

/-- A generator source record (message GeneratorSource of metadata_pb2). -/
structure GeneratorSource where
  name : String := ""
  version : String := ""
  docker_image : String := ""
deriving DecidableEq

/-- A template source record (message TemplateSource of metadata_pb2). -/
structure TemplateSource where
  name : String := ""
  origin : String := ""
  version : String := ""
deriving DecidableEq

/-- A source is a tagged union: exactly one of git, generator, template is
set (the oneof of message Source).  HasField tests in the code become
matches on the constructor. -/
inductive Source where
  | git : GitSource → Source
  | generator : GeneratorSource → Source
  | template : TemplateSource → Source
deriving DecidableEq

/-- A client library destination (message ClientDestination), with the
fields exercised by the code and its tests. -/
structure ClientDestination where
  source : String := ""
  api_name : String := ""
  api_version : String := ""
  language : String := ""
  generator : String := ""
  config : String := ""
deriving DecidableEq

/-- A generated file record (message GeneratedFile): a path relative to
the working tree root. -/
structure GeneratedFile where
  path : String
deriving DecidableEq

/-- The root metadata record (message Metadata).  new_files is the
repeated GeneratedFile field used by metadata_tracker.py;
generated_files is the repeated string field used by the older
implementation in metadata.py. -/
structure Metadata where
  sources : List Source := []
  destinations : List ClientDestination := []
  new_files : List GeneratedFile := []
  generated_files : List String := []
deriving DecidableEq

/-- A fresh, empty Metadata, as produced by metadata_pb2.Metadata(). -/
def emptyMetadata : Metadata := {}

/-! ### Path helpers -/

/-- Split a character list at every slash, keeping empty pieces, as
str.split with a slash separator does. -/
def splitSlashAux : List Char → List Char → List String
  | [], acc => [String.mk acc.reverse]
  | c :: rest, acc =>
    if c = '/' then String.mk acc.reverse :: splitSlashAux rest []
    else splitSlashAux rest (c :: acc)

/-- Split a path string at every slash. -/
def splitSlash (p : String) : List String := splitSlashAux p.data []

/-- Whether a POSIX path is absolute: it starts with a slash. -/
def isAbsolute (p : String) : Bool := p.data.head? == some '/'

/-- Model of pathlib.Path(p).parts for POSIX paths: split on the
separator, drop empty components and single dots, keep a root marker for
absolute paths. -/
def pathParts (p : String) : List String :=
  let comps := (splitSlash p).filter (fun c => !(c == "") && !(c == "."))
  if isAbsolute p then "/" :: comps else comps

/-- Model of os.path.normpath for POSIX paths: collapse repeated
separators, drop single dots, resolve inner double dots. -/
def normpath (p : String) : String :=
  if p = "" then "." else
  let isAbs := isAbsolute p
  let comps := (splitSlash p).filter (fun c => !(c == "") && !(c == "."))
  let resolved := comps.foldl (fun acc c =>
    if c = ".." then
      if isAbs = true ∧ acc = [] then acc
      else if acc ≠ [] ∧ acc.getLast? ≠ some ".." then acc.dropLast
      else acc ++ [c]
    else acc ++ [c]) ([] : List String)
  let body := String.intercalate "/" resolved
  let out := if isAbs then "/" ++ body else body
  if out = "" then "." else out

/-- Model of _git_slashes.  On win32 it replaces backslashes with forward
slashes; on every other platform it returns the path unchanged.  The
model fixes the POSIX branch. -/
def _git_slashes (path : String) : String := path

/-! ### Ignore filter

git_ignore(file_paths) first drops every path with a .git component
(git check-ignore does not itself exclude .git contents), then batches
the rest through git check-ignore and keeps the paths whose normalized
form is not among the normalized output lines.  The tool output is
external, so membership of a normalized path in the ignored set is
abstracted by the predicate isIgnored. -/

/-- Model of git_ignore.  isIgnored n stands for: n is a member of the
set of normalized paths printed by git check-ignore. -/
def git_ignore (isIgnored : String → Bool) (file_paths : List String) : List String :=
  let nongit_file_paths := file_paths.filter
    (fun file_path => !((pathParts file_path).contains ".git"))
  nongit_file_paths.filter (fun path => !(isIgnored (normpath path)))

/-- A path passes the ignore filter when it has no .git component and its
normalized form is not reported as ignored. -/
def passes_ignore_filter (isIgnored : String → Bool) (p : String) : Bool :=
  !((pathParts p).contains ".git") && !(isIgnored (normpath p))

theorem mem_git_ignore (isIgnored : String → Bool) (ps : List String) (p : String) :
    p ∈ git_ignore isIgnored ps ↔ p ∈ ps ∧ passes_ignore_filter isIgnored p = true := by
  simp only [git_ignore, passes_ignore_filter, List.mem_filter, Bool.and_eq_true, and_assoc]

theorem git_ignore_eq_filter (isIgnored : String → Bool) (ps : List String) :
    git_ignore isIgnored ps = ps.filter (passes_ignore_filter isIgnored) := by
  simp only [git_ignore, List.filter_filter]
  apply List.filter_congr
  intro a _
  simp [passes_ignore_filter, Bool.and_comm]

/-! ### Obsolete-file removal

_remove_obsolete_files(old_metadata) computes the set difference between
the paths recorded in the old metadata and the paths recorded so far in
the current run, filters it through git_ignore, and unlinks each
remaining path.  Only FileNotFoundError is caught (and ignored); any
other exception from os.unlink propagates out of the loop. -/

/-- Outcome of one os.unlink call: success, FileNotFoundError, or any
other OSError (permission denied, is-a-directory, ...). -/
inductive UnlinkResult where
  | ok
  | fileNotFound
  | otherError
deriving DecidableEq

/-- What the removal loop did: the paths it passed to os.unlink in
order, and the path whose deletion raised a non-FileNotFoundError
exception, when one did. -/
structure RemoveOutcome where
  attempted : List String
  raised : Option String
deriving DecidableEq

/-- The deletion loop of _remove_obsolete_files: try os.unlink on each
path; pass on FileNotFoundError; any other exception propagates at once
and ends the loop. -/
def remove_loop (unlink : String → UnlinkResult) : List String → RemoveOutcome
  | [] => ⟨[], none⟩
  | file_path :: rest =>
    match unlink file_path with
    | .otherError => ⟨[file_path], some file_path⟩
    | _ =>
      let r := remove_loop unlink rest
      ⟨file_path :: r.attempted, r.raised⟩

/-- The set difference old new_files minus current new_files, by path.
Python materializes both sides as sets; the model dedups the old list,
so membership agrees with the set difference. -/
def obsolete_paths (old current : Metadata) : List String :=
  let old_files := (old.new_files.map GeneratedFile.path).dedup
  let new_files := current.new_files.map GeneratedFile.path
  old_files.filter (fun p => !(new_files.contains p))

/-- The paths _remove_obsolete_files actually tries to delete: the
obsolete set run through git_ignore. -/
def removal_candidates (isIgnored : String → Bool) (old current : Metadata) :
    List String :=
  git_ignore isIgnored (obsolete_paths old current)

/-- Model of _remove_obsolete_files from metadata_tracker.py. -/
def _remove_obsolete_files (isIgnored : String → Bool)
    (unlink : String → UnlinkResult) (old current : Metadata) : RemoveOutcome :=
  remove_loop unlink (removal_candidates isIgnored old current)

/-! ### Reading persisted metadata -/

/-- Model of _read_or_empty from metadata.py.  file is the content of
the file at the given path, or none when opening raises
FileNotFoundError; parse abstracts google.protobuf.json_format.Parse,
which either returns a Metadata or raises a parse error.  Only
FileNotFoundError is caught; a parse error propagates to the caller. -/
def _read_or_empty (parse : String → Except String Metadata)
    (file : Option String) : Except String Metadata :=
  match file with
  | none => Except.ok emptyMetadata
  | some text => parse text

/-! ### Module-level toggles of metadata.py -/

/-- The module-level mutable globals of metadata.py. -/
structure GlobalState where
  track_obsolete_files : Bool
  enable_write_metadata : Bool
deriving DecidableEq

/-- The module initialization of metadata.py:
_track_obsolete_files = False and _enable_write_metadata = True. -/
def initial_state : GlobalState :=
  { track_obsolete_files := false, enable_write_metadata := true }

/-- Model of set_track_obsolete_files (the Python default argument for
the parameter is True). -/
def set_track_obsolete_files (track : Bool) (s : GlobalState) : GlobalState :=
  { s with track_obsolete_files := track }

/-- Model of should_track_obsolete_files. -/
def should_track_obsolete_files (s : GlobalState) : Bool :=
  s.track_obsolete_files

/-! ### Recording new files and clearing local paths -/

/-- Model of _add_new_files from metadata_tracker.py: append one
GeneratedFile per path, with git-style slashes. -/
def _add_new_files (files : List String) (m : Metadata) : Metadata :=
  { m with new_files := m.new_files ++ files.map (fun f => ⟨_git_slashes f⟩) }

/-- Model of _clear_local_paths: for every source with the git field
set, clear the local_path field (proto3 clear resets a string field to
the empty string). -/
def _clear_local_paths (m : Metadata) : Metadata :=
  { m with sources := m.sources.map (fun s =>
      match s with
      | .git g => .git { g with local_path := "" }
      | s => s) }

/-! ### Canonical source ordering

metadata.py sorts _metadata.sources with key=_source_key at scope exit.
_source_key returns a 4-tuple of strings whose first component is the
kind tag; Python compares the key tuples lexicographically, strings by
code points. -/

/-- Model of _source_key: the sort key tuple for a source. -/
def _source_key (source : Source) : String × String × String × String :=
  match source with
  | .git g => ("git", g.name, g.remote, g.sha)
  | .generator g => ("generator", g.name, g.version, g.docker_image)
  | .template t => ("template", t.name, t.origin, t.version)

/-- Lexicographic order on 4-tuples of strings, as Python compares the
key tuples. -/
def lexLe4 (a b : String × String × String × String) : Prop :=
  a.1 < b.1 ∨ (a.1 = b.1 ∧ (a.2.1 < b.2.1 ∨ (a.2.1 = b.2.1 ∧
    (a.2.2.1 < b.2.2.1 ∨ (a.2.2.1 = b.2.2.1 ∧ a.2.2.2 ≤ b.2.2.2)))))

instance : DecidableRel lexLe4 := fun a b => by
  unfold lexLe4
  infer_instance

/-- The ordering on sources induced by the key tuples: the relation the
sort call in the scope exit of metadata.py sorts by. -/
def source_le (s t : Source) : Prop :=
  lexLe4 (_source_key s) (_source_key t)

instance : DecidableRel source_le := fun s t => by
  unfold source_le
  infer_instance

theorem lexLe4_total (a b : String × String × String × String) :
    lexLe4 a b ∨ lexLe4 b a := by
  unfold lexLe4
  rcases lt_trichotomy a.1 b.1 with h1 | h1 | h1
  · exact Or.inl (Or.inl h1)
  · rcases lt_trichotomy a.2.1 b.2.1 with h2 | h2 | h2
    · exact Or.inl (Or.inr ⟨h1, Or.inl h2⟩)
    · rcases lt_trichotomy a.2.2.1 b.2.2.1 with h3 | h3 | h3
      · exact Or.inl (Or.inr ⟨h1, Or.inr ⟨h2, Or.inl h3⟩⟩)
      · rcases le_total a.2.2.2 b.2.2.2 with h4 | h4
        · exact Or.inl (Or.inr ⟨h1, Or.inr ⟨h2, Or.inr ⟨h3, h4⟩⟩⟩)
        · exact Or.inr (Or.inr ⟨h1.symm, Or.inr ⟨h2.symm, Or.inr ⟨h3.symm, h4⟩⟩⟩)
      · exact Or.inr (Or.inr ⟨h1.symm, Or.inr ⟨h2.symm, Or.inl h3⟩⟩)
    · exact Or.inr (Or.inr ⟨h1.symm, Or.inl h2⟩)
  · exact Or.inr (Or.inl h1)

theorem lexLe4_trans (a b c : String × String × String × String)
    (hab : lexLe4 a b) (hbc : lexLe4 b c) : lexLe4 a c := by
  unfold lexLe4 at *
  rcases hab with h1 | ⟨e1, hab⟩
  · rcases hbc with h2 | ⟨e2, _⟩
    · exact Or.inl (h1.trans h2)
    · exact Or.inl (e2 ▸ h1)
  · rcases hbc with h2 | ⟨e2, hbc⟩
    · exact Or.inl (e1 ▸ h2)
    · refine Or.inr ⟨e1.trans e2, ?_⟩
      rcases hab with h1 | ⟨f1, hab⟩
      · rcases hbc with h2 | ⟨g2, _⟩
        · exact Or.inl (h1.trans h2)
        · exact Or.inl (g2 ▸ h1)
      · rcases hbc with h2 | ⟨g2, hbc⟩
        · exact Or.inl (f1 ▸ h2)
        · refine Or.inr ⟨f1.trans g2, ?_⟩
          rcases hab with h1 | ⟨f2, hab⟩
          · rcases hbc with h2 | ⟨g3, _⟩
            · exact Or.inl (h1.trans h2)
            · exact Or.inl (g3 ▸ h1)
          · rcases hbc with h2 | ⟨g3, hbc⟩
            · exact Or.inl (f2 ▸ h2)
            · exact Or.inr ⟨f2.trans g3, hab.trans hbc⟩

instance : IsTotal Source source_le :=
  ⟨fun s t => lexLe4_total (_source_key s) (_source_key t)⟩

instance : IsTrans Source source_le :=
  ⟨fun s t u => lexLe4_trans (_source_key s) (_source_key t) (_source_key u)⟩

/-- Model of the sort call in the scope exit of metadata.py:
_metadata.sources.sort(key=_source_key).  Python list.sort is a stable
comparison sort; insertion sort by the key order models it. -/
def sortSources (l : List Source) : List Source :=
  List.insertionSort source_le l

/-! ### Helper lemmas about the ignore filter and the obsolete set -/

theorem not_mem_git_ignore_of_git_part {p : String} (h : ".git" ∈ pathParts p)
    (isIgnored : String → Bool) (ps : List String) :
    p ∉ git_ignore isIgnored ps := by
  intro hmem
  have h2 := ((mem_git_ignore isIgnored ps p).mp hmem).2
  simp only [passes_ignore_filter, Bool.and_eq_true, Bool.not_eq_true'] at h2
  have h3 : (pathParts p).contains ".git" = true := by
    simpa using h
  rw [h3] at h2
  exact absurd h2.1 (by simp)

theorem mem_obsolete_paths (old current : Metadata) (p : String) :
    p ∈ obsolete_paths old current ↔
      p ∈ old.new_files.map GeneratedFile.path
        ∧ p ∉ current.new_files.map GeneratedFile.path := by
  simp [obsolete_paths, List.mem_filter, List.mem_dedup]

theorem mem_removal_candidates (isIgnored : String → Bool) (old current : Metadata)
    (p : String) :
    p ∈ removal_candidates isIgnored old current ↔
      p ∈ old.new_files.map GeneratedFile.path
        ∧ p ∉ current.new_files.map GeneratedFile.path
        ∧ passes_ignore_filter isIgnored p = true := by
  rw [removal_candidates, mem_git_ignore, mem_obsolete_paths, and_assoc]

/-! ### Claim theorems: reconciliation and the ignore filter -/

/-- Claim C1: for all old and new generated-file sets, reconciliation
deletes exactly the old-minus-new paths that pass the ignore filter; it
deletes no path recorded in the new set and no ignored member of the
difference. -/
theorem reconcile_deletes_exactly (isIgnored : String → Bool) (old current : Metadata) :
    (∀ p, p ∈ removal_candidates isIgnored old current ↔
        (p ∈ old.new_files.map GeneratedFile.path
          ∧ p ∉ current.new_files.map GeneratedFile.path
          ∧ passes_ignore_filter isIgnored p = true))
    ∧ (∀ p, p ∈ current.new_files.map GeneratedFile.path →
        p ∉ removal_candidates isIgnored old current)
    ∧ (∀ p, p ∈ old.new_files.map GeneratedFile.path →
        p ∉ current.new_files.map GeneratedFile.path →
        passes_ignore_filter isIgnored p = false →
        p ∉ removal_candidates isIgnored old current) := by
  refine ⟨fun p => mem_removal_candidates isIgnored old current p, ?_, ?_⟩
  · intro p hp hmem
    exact ((mem_removal_candidates isIgnored old current p).mp hmem).2.1 hp
  · intro p _ _ hfail hmem
    have := ((mem_removal_candidates isIgnored old current p).mp hmem).2.2
    rw [hfail] at this
    exact Bool.false_ne_true this

theorem reconcile_deletes_exactly_witness :
    "a" ∈ removal_candidates (fun _ => false)
        { new_files := [⟨"a"⟩, ⟨"b"⟩] } { new_files := [⟨"b"⟩] }
    ∧ "b" ∉ removal_candidates (fun _ => false)
        { new_files := [⟨"a"⟩, ⟨"b"⟩] } { new_files := [⟨"b"⟩] } :=
  ⟨((reconcile_deletes_exactly (fun _ => false)
      { new_files := [⟨"a"⟩, ⟨"b"⟩] } { new_files := [⟨"b"⟩] }).1 "a").mpr
      ⟨by decide, by decide, by decide⟩,
   (reconcile_deletes_exactly (fun _ => false)
      { new_files := [⟨"a"⟩, ⟨"b"⟩] } { new_files := [⟨"b"⟩] }).2.1 "b" (by decide)⟩

/-- Claim C2: a path with a .git component never survives the ignore
filter, whatever the external ignore tool reports; hence it is never
among the removal candidates and never enters the recorded new files. -/
theorem git_paths_never_survive (isIgnored : String → Bool) (p : String)
    (hp : ".git" ∈ pathParts p) :
    (∀ ps, p ∉ git_ignore isIgnored ps)
    ∧ (∀ old current, p ∉ removal_candidates isIgnored old current)
    ∧ (∀ (scanned : List String) (m : Metadata),
        (∀ f ∈ m.new_files, ".git" ∉ pathParts f.path) →
        ∀ f ∈ (_add_new_files (git_ignore isIgnored scanned) m).new_files,
          ".git" ∉ pathParts f.path) := by
  refine ⟨fun ps => not_mem_git_ignore_of_git_part hp isIgnored ps,
    fun old current => not_mem_git_ignore_of_git_part hp isIgnored _, ?_⟩
  intro scanned m hm f hf
  simp only [_add_new_files, List.mem_append, List.mem_map] at hf
  rcases hf with hf | ⟨q, hq, rfl⟩
  · exact hm f hf
  · intro hgit
    exact @not_mem_git_ignore_of_git_part q hgit isIgnored scanned hq

theorem git_paths_never_survive_witness :
    ".git/config" ∉ git_ignore (fun _ => false) [".git/config", "a"] :=
  (git_paths_never_survive (fun _ => false) ".git/config" (by decide)).1
    [".git/config", "a"]

/-- Claim C9: the ignore filter returns exactly the input paths that
pass it, in input order with input multiplicity; its output is a
subsequence of its input. -/
theorem git_ignore_is_filter (isIgnored : String → Bool) (ps : List String) :
    git_ignore isIgnored ps = ps.filter (passes_ignore_filter isIgnored)
    ∧ (git_ignore isIgnored ps).Sublist ps := by
  refine ⟨git_ignore_eq_filter isIgnored ps, ?_⟩
  rw [git_ignore_eq_filter]
  exact List.filter_sublist ps

/-! ### Claim theorems: removal loop error handling -/

/-- A deletion oracle that fails with a permission-style error on the
path a and succeeds elsewhere. -/
def unlink_denied_on_a : String → UnlinkResult :=
  fun p => if p = "a" then .otherError else .ok

/-- Counterexample to claim C3: with old files a and b both obsolete and
the deletion of a failing with a non-absence error, the loop attempts
only a, never reaches b, and the exception propagates, so the scope exit
does not succeed. -/
theorem remove_aborts_on_other_error_cex :
    (_remove_obsolete_files (fun _ => false) unlink_denied_on_a
        { new_files := [⟨"a"⟩, ⟨"b"⟩] } {}).attempted = ["a"]
    ∧ (_remove_obsolete_files (fun _ => false) unlink_denied_on_a
        { new_files := [⟨"a"⟩, ⟨"b"⟩] } {}).raised = some "a" := by
  decide

/-- Claim C3 as amended: deleting an already-absent file is treated as
success and processing continues; but any other deletion failure ends
the loop at once: the remaining paths are not attempted and the
exception propagates out of the scope exit. -/
theorem remove_loop_best_effort_until_error (unlink : String → UnlinkResult)
    (ps : List String) :
    ((∀ p ∈ ps, unlink p ≠ UnlinkResult.otherError) →
        remove_loop unlink ps = ⟨ps, none⟩)
    ∧ (∀ xs p ys, ps = xs ++ p :: ys →
        (∀ q ∈ xs, unlink q ≠ UnlinkResult.otherError) →
        unlink p = UnlinkResult.otherError →
        remove_loop unlink ps = ⟨xs ++ [p], some p⟩) := by
  constructor
  · intro h
    induction ps with
    | nil => rfl
    | cons q rest ih =>
      have hq := h q (List.mem_cons_self q rest)
      have hrest := ih (fun p hp => h p (List.mem_cons_of_mem q hp))
      unfold remove_loop
      cases hu : unlink q with
      | otherError => exact absurd hu hq
      | ok => simp [hrest]
      | fileNotFound => simp [hrest]
  · intro xs
    induction xs generalizing ps with
    | nil =>
      intro p ys hps _ hp
      subst hps
      simp only [List.nil_append]
      unfold remove_loop
      rw [hp]
    | cons q xs1 ih =>
      intro p ys hps hxs hp
      subst hps
      have hq := hxs q (List.mem_cons_self q xs1)
      have := ih (xs1 ++ p :: ys) p ys rfl
        (fun r hr => hxs r (List.mem_cons_of_mem q hr)) hp
      unfold remove_loop
      cases hu : unlink q with
      | otherError => exact absurd hu hq
      | ok => simp [this]
      | fileNotFound => simp [this]

theorem remove_loop_best_effort_until_error_witness :
    remove_loop (fun _ => UnlinkResult.fileNotFound) ["a", "b"] = ⟨["a", "b"], none⟩
    ∧ remove_loop unlink_denied_on_a ["a", "b"] = ⟨["a"], some "a"⟩ :=
  ⟨(remove_loop_best_effort_until_error (fun _ => UnlinkResult.fileNotFound)
      ["a", "b"]).1 (by decide),
   (remove_loop_best_effort_until_error unlink_denied_on_a ["a", "b"]).2
      [] "a" ["b"] rfl (by decide) (by decide)⟩

/-! ### Claim theorems: reading persisted metadata -/

/-- A parse oracle that always fails, standing for json content the
protobuf parser rejects. -/
def failing_parse : String → Except String Metadata :=
  fun _ => Except.error "ParseError"

/-- Counterexample to claim C4: when the file exists but parsing fails,
_read_or_empty does not return an empty Metadata; the parse error
reaches the caller. -/
theorem read_or_empty_parse_error_cex :
    _read_or_empty failing_parse (some "not json") = Except.error "ParseError"
    ∧ _read_or_empty failing_parse (some "not json") ≠ Except.ok emptyMetadata := by
  refine ⟨rfl, ?_⟩
  intro h
  exact Except.noConfusion h

/-- Claim C4 as amended: when no file exists _read_or_empty returns an
empty Metadata; when the file exists but cannot be parsed, the parse
error propagates to the caller instead of being treated as absent. -/
theorem read_or_empty_absent_empty_parse_propagates
    (parse : String → Except String Metadata) :
    _read_or_empty parse none = Except.ok emptyMetadata
    ∧ (∀ text msg, parse text = Except.error msg →
        _read_or_empty parse (some text) = Except.error msg) := by
  exact ⟨rfl, fun text msg h => h⟩

theorem read_or_empty_absent_empty_parse_propagates_witness :
    _read_or_empty failing_parse none = Except.ok emptyMetadata
    ∧ _read_or_empty failing_parse (some "x") = Except.error "ParseError" :=
  ⟨(read_or_empty_absent_empty_parse_propagates failing_parse).1,
   (read_or_empty_absent_empty_parse_propagates failing_parse).2 "x" "ParseError" rfl⟩

/-! ### Claim theorems: the tracking toggle default -/

/-- Claim C5 (code behavior at the failing input): at module
initialization, before any call to set_track_obsolete_files, the toggle
is false, so should_track_obsolete_files returns false, while the tests
of the repository assert that it defaults to true. -/
theorem track_obsolete_files_defaults_to_false :
    should_track_obsolete_files initial_state = false := rfl

/-! ### Claim theorems: canonical source order at scope exit -/

theorem generator_lt_git : ("generator" : String) < "git" := by
  rw [String.lt_iff_toList_lt]
  decide

theorem git_lt_template : ("git" : String) < "template" := by
  rw [String.lt_iff_toList_lt]
  decide

theorem not_git_lt_generator : ¬ ("git" : String) < "generator" := by
  rw [String.lt_iff_toList_lt]
  decide

theorem git_ne_generator : ("git" : String) ≠ "generator" := by decide

/-- The sources finalization of the scope exit in metadata.py: clear the
transient local paths, then sort the sources by _source_key. -/
def exit_sources (m : Metadata) : List Source :=
  sortSources (_clear_local_paths m).sources

/-- A git source named a, with no local path. -/
def git_source_a : Source := Source.git { name := "a" }

/-- A generator source named b. -/
def generator_source_b : Source := Source.generator { name := "b" }

theorem not_source_le_git_generator (g : GitSource) (gen : GeneratorSource) :
    ¬ source_le (Source.git g) (Source.generator gen) := by
  intro h
  simp only [source_le, _source_key, lexLe4] at h
  rcases h with h | ⟨e, -⟩
  · exact not_git_lt_generator h
  · exact git_ne_generator e

/-- Counterexample to claim C6: the sort key compares the kind tags as
strings, and generator sorts before git; a git source followed by a
generator source comes out generator first, not git first as claimed. -/
theorem sort_puts_generator_before_git_cex :
    exit_sources { sources := [git_source_a, generator_source_b] }
      = [generator_source_b, git_source_a]
    ∧ exit_sources { sources := [git_source_a, generator_source_b] }
      ≠ [git_source_a, generator_source_b] := by
  have hns : ¬ source_le git_source_a generator_source_b :=
    not_source_le_git_generator _ _
  have hclear : _clear_local_paths { sources := [git_source_a, generator_source_b] }
      = { sources := [git_source_a, generator_source_b] } := by
    simp [_clear_local_paths, git_source_a, generator_source_b]
  have hs : exit_sources { sources := [git_source_a, generator_source_b] }
      = [generator_source_b, git_source_a] := by
    unfold exit_sources
    rw [hclear]
    unfold sortSources
    simp only [List.insertionSort, List.orderedInsert]
    rw [if_neg hns]
  refine ⟨hs, ?_⟩
  rw [hs]
  intro h
  have := List.head_eq_of_cons_eq h
  simp [git_source_a, generator_source_b] at this

/-- Claim C6 as amended: at scope exit the sources are sorted into the
canonical order given by the key tuples: kinds grouped in the order
generator, git, template (the kind tags compared as strings), and within
each kind lexicographically by the kind-specific natural key. -/
theorem exit_sources_canonical_order (m : Metadata) :
    (exit_sources m).Perm (_clear_local_paths m).sources
    ∧ List.Sorted source_le (exit_sources m)
    ∧ (∀ (gen : GeneratorSource) (g : GitSource) (t : TemplateSource),
        source_le (Source.generator gen) (Source.git g)
        ∧ source_le (Source.git g) (Source.template t)
        ∧ ¬ source_le (Source.git g) (Source.generator gen)) := by
  refine ⟨List.perm_insertionSort source_le _,
    List.sorted_insertionSort source_le _, ?_⟩
  intro gen g t
  refine ⟨?_, ?_, not_source_le_git_generator g gen⟩
  · simp only [source_le, _source_key, lexLe4]
    exact Or.inl generator_lt_git
  · simp only [source_le, _source_key, lexLe4]
    exact Or.inl git_lt_template

theorem exit_sources_canonical_order_witness :
    List.Sorted source_le (exit_sources { sources := [git_source_a, generator_source_b] }) :=
  (exit_sources_canonical_order { sources := [git_source_a, generator_source_b] }).2.1

/-! ### Appending git logs at scope exit

_append_git_logs(old_metadata, new_metadata) builds a name-to-source
dict for each snapshot via _get_git_source_map, and for every entry of
the new map looks up the old source by name (defaulting to an empty
GitSource), skips the entry when the old sha or the new local path is
empty, and otherwise runs git log oldsha..HEAD in the local path and
assigns the output to the log field of the mapped source object.  A
Python dict keeps one binding per name, the value being the last git
source inserted with that name, and assigning through the map value
mutates that same object inside new_metadata.sources. -/

/-- Assignment into a Python dict modelled as an association list with
unique keys: overwrite the value at an existing key in place, else
append the new binding at the end. -/
def dictInsert : List (String × GitSource) → String → GitSource →
    List (String × GitSource)
  | [], k, v => [(k, v)]
  | kv :: rest, k, v =>
    if kv.1 = k then (k, v) :: rest else kv :: dictInsert rest k v

/-- Dict lookup. -/
def dictGet (d : List (String × GitSource)) (k : String) : Option GitSource :=
  (d.find? (fun kv => kv.1 == k)).map Prod.snd

/-- Model of _get_git_source_map: iterate over the sources and store
every git source under its name; a later git source with the same name
overwrites the earlier binding. -/
def _get_git_source_map (m : Metadata) : List (String × GitSource) :=
  m.sources.foldl (fun d s =>
    match s with
    | .git g => dictInsert d g.name g
    | _ => d) []

/-- Whether some source in the list is a git source with this name. -/
def hasGitNamed (sources : List Source) (name : String) : Bool :=
  sources.any (fun s =>
    match s with
    | .git g => g.name == name
    | _ => false)

/-- Assigning the log field through the dict value mutates the
underlying source object, which is the last git source with that name in
the sources list: replace that occurrence, leave everything else. -/
def setLogOnLastGit : List Source → String → String → List Source
  | [], _, _ => []
  | s :: rest, name, logText =>
    match s with
    | .git g =>
      if g.name = name ∧ hasGitNamed rest name = false then
        Source.git { g with log := logText } :: rest
      else
        s :: setLogOnLastGit rest name logText
    | _ => s :: setLogOnLastGit rest name logText

/-- The loop of _append_git_logs over the entries of the new map: an
entry is skipped when the matching old source has no sha (a name absent
from the old map defaults to an empty GitSource) or the mapped new
source has no local path; otherwise the log of the matched source is set
to the git log text between the old sha and the HEAD of the local
path. -/
def append_logs_loop (gitLog : String → String → String)
    (old_map : List (String × GitSource)) :
    List (String × GitSource) → List Source → List Source
  | [], srcs => srcs
  | entry :: rest, srcs =>
    let old_source := (dictGet old_map entry.1).getD {}
    if old_source.sha = "" ∨ entry.2.local_path = "" then
      append_logs_loop gitLog old_map rest srcs
    else
      append_logs_loop gitLog old_map rest
        (setLogOnLastGit srcs entry.1 (gitLog entry.2.local_path old_source.sha))

/-- Model of _append_git_logs from metadata_tracker.py.  gitLog
abstracts the subprocess git -C local_path log --pretty=oneline
--no-decorate oldsha..HEAD, as a function of the local path and the old
sha. -/
def _append_git_logs (gitLog : String → String → String)
    (old new_meta : Metadata) : Metadata :=
  { new_meta with
    sources := append_logs_loop gitLog (_get_git_source_map old)
      (_get_git_source_map new_meta) new_meta.sources }

/-- One step of scanning for the last git source with a given name. -/
def lastGitStep (name : String) (acc : Option GitSource) (s : Source) :
    Option GitSource :=
  match s with
  | .git g => if g.name = name then some g else acc
  | _ => acc

/-- The last git source with the given name, if any. -/
def lastGitNamed (sources : List Source) (name : String) : Option GitSource :=
  sources.foldl (lastGitStep name) none

/-- The names of the git sources, in sequence order. -/
def gitNames (sources : List Source) : List String :=
  sources.filterMap (fun s =>
    match s with
    | .git g => some g.name
    | _ => none)

/-- The metadata finalization of the scope exit in metadata_tracker.py:
when tracking is enabled, the scanned files that survive the ignore
filter are recorded as new files (and the obsolete files are removed
from disk, which does not change the metadata); then git logs are
appended against the old snapshot, the transient local paths are
cleared, and the result is what metadata.write persists. -/
def tracker_exit_metadata (gitLog : String → String → String)
    (isIgnored : String → Bool) (track : Bool) (scanned : List String)
    (old current : Metadata) : Metadata :=
  let current1 :=
    if track then _add_new_files (git_ignore isIgnored scanned) current
    else current
  _clear_local_paths (_append_git_logs gitLog old current1)

/-! ### Lemmas about the dict model and the source map -/

theorem dictGet_nil (n : String) : dictGet [] n = none := rfl

theorem dictGet_cons (e : String × GitSource) (d : List (String × GitSource))
    (n : String) :
    dictGet (e :: d) n = if e.1 = n then some e.2 else dictGet d n := by
  simp only [dictGet, List.find?_cons]
  by_cases h : e.1 = n
  · have hb : (e.1 == n) = true := by simp [h]
    simp [hb, h]
  · have hb : (e.1 == n) = false := by simp [h]
    simp [hb, h]

theorem dictGet_dictInsert (d : List (String × GitSource)) (k n : String)
    (v : GitSource) :
    dictGet (dictInsert d k v) n = if k = n then some v else dictGet d n := by
  induction d with
  | nil => simp [dictInsert, dictGet_cons, dictGet_nil]
  | cons kv rest ih =>
    by_cases hk : kv.1 = k
    · rw [dictInsert, if_pos hk, dictGet_cons, dictGet_cons]
      by_cases hn : k = n
      · simp [hn]
      · rw [if_neg hn, if_neg hn, if_neg (by rw [hk]; exact hn)]
    · rw [dictInsert, if_neg hk, dictGet_cons, ih, dictGet_cons]
      by_cases hn : k = n
      · have hkn : kv.1 ≠ n := fun h2 => hk (h2.trans hn.symm)
        simp [hn, hkn]
      · simp [hn]

theorem mem_keys_dictInsert (d : List (String × GitSource)) (k n : String)
    (v : GitSource) (h : n ∈ (dictInsert d k v).map Prod.fst) :
    n ∈ d.map Prod.fst ∨ n = k := by
  induction d with
  | nil =>
    simp only [dictInsert, List.map_cons, List.map_nil, List.mem_singleton] at h
    exact Or.inr h
  | cons kv rest ih =>
    by_cases hk : kv.1 = k
    · rw [dictInsert, if_pos hk] at h
      simp only [List.map_cons, List.mem_cons] at h ⊢
      rcases h with h | h
      · exact Or.inr h
      · exact Or.inl (Or.inr h)
    · rw [dictInsert, if_neg hk] at h
      simp only [List.map_cons, List.mem_cons] at h ⊢
      rcases h with h | h
      · exact Or.inl (Or.inl h)
      · rcases ih h with h2 | h2
        · exact Or.inl (Or.inr h2)
        · exact Or.inr h2

theorem nodup_keys_dictInsert (d : List (String × GitSource)) (k : String)
    (v : GitSource) (h : (d.map Prod.fst).Nodup) :
    ((dictInsert d k v).map Prod.fst).Nodup := by
  induction d with
  | nil => simp [dictInsert]
  | cons kv rest ih =>
    rw [List.map_cons, List.nodup_cons] at h
    by_cases hk : kv.1 = k
    · rw [dictInsert, if_pos hk, List.map_cons, List.nodup_cons]
      exact ⟨hk ▸ h.1, h.2⟩
    · rw [dictInsert, if_neg hk, List.map_cons, List.nodup_cons]
      refine ⟨?_, ih h.2⟩
      intro hmem
      rcases mem_keys_dictInsert rest k kv.1 v hmem with h2 | h2
      · exact h.1 h2
      · exact hk h2

theorem nodup_keys_foldl (l : List Source) (d : List (String × GitSource))
    (h : (d.map Prod.fst).Nodup) :
    ((l.foldl (fun d s =>
      match s with
      | .git g => dictInsert d g.name g
      | _ => d) d).map Prod.fst).Nodup := by
  induction l generalizing d with
  | nil => exact h
  | cons s rest ih =>
    rw [List.foldl_cons]
    cases s with
    | git g => exact ih _ (nodup_keys_dictInsert d g.name g h)
    | generator g => exact ih _ h
    | template t => exact ih _ h

theorem nodup_keys_git_source_map (m : Metadata) :
    ((_get_git_source_map m).map Prod.fst).Nodup :=
  nodup_keys_foldl m.sources [] (by simp)

theorem dictGet_foldl (l : List Source) (d : List (String × GitSource))
    (n : String) :
    dictGet (l.foldl (fun d s =>
      match s with
      | .git g => dictInsert d g.name g
      | _ => d) d) n = l.foldl (lastGitStep n) (dictGet d n) := by
  induction l generalizing d with
  | nil => rfl
  | cons s rest ih =>
    rw [List.foldl_cons, List.foldl_cons]
    cases s with
    | git g =>
      rw [ih]
      have : dictGet (dictInsert d g.name g) n
          = lastGitStep n (dictGet d n) (Source.git g) := by
        rw [dictGet_dictInsert]
        rfl
      rw [this]
    | generator g => exact ih d
    | template t => exact ih d

theorem dictGet_git_source_map (m : Metadata) (n : String) :
    dictGet (_get_git_source_map m) n = lastGitNamed m.sources n := by
  unfold _get_git_source_map lastGitNamed
  exact dictGet_foldl m.sources [] n

theorem dictGet_eq_none_of_not_mem_keys (d : List (String × GitSource))
    (n : String) (h : n ∉ d.map Prod.fst) : dictGet d n = none := by
  induction d with
  | nil => rfl
  | cons kv rest ih =>
    simp only [List.map_cons, List.mem_cons] at h
    push_neg at h
    rw [dictGet_cons, if_neg (fun h2 => h.1 h2.symm)]
    exact ih h.2

/-! ### Lemmas about git-named sources -/

theorem hasGitNamed_cons (s : Source) (l : List Source) (n : String) :
    hasGitNamed (s :: l) n =
      ((match s with
        | Source.git g => g.name == n
        | _ => false) || hasGitNamed l n) := by
  simp [hasGitNamed, List.any_cons]

theorem hasGitNamed_iff (l : List Source) (n : String) :
    hasGitNamed l n = true ↔ ∃ g : GitSource, Source.git g ∈ l ∧ g.name = n := by
  unfold hasGitNamed
  rw [List.any_eq_true]
  constructor
  · rintro ⟨s, hs, hp⟩
    cases s with
    | git g => exact ⟨g, hs, by simpa using hp⟩
    | generator g => simp at hp
    | template t => simp at hp
  · rintro ⟨g, hg, rfl⟩
    exact ⟨Source.git g, hg, by simp⟩

theorem hasGitNamed_eq_mem_gitNames (l : List Source) (n : String) :
    hasGitNamed l n = true ↔ n ∈ gitNames l := by
  rw [hasGitNamed_iff]
  unfold gitNames
  rw [List.mem_filterMap]
  constructor
  · rintro ⟨g, hg, rfl⟩
    exact ⟨Source.git g, hg, rfl⟩
  · rintro ⟨s, hs, hmap⟩
    cases s with
    | git g => exact ⟨g, hs, by simpa using hmap⟩
    | generator g => simp at hmap
    | template t => simp at hmap

theorem hasGitNamed_eq_false_iff (l : List Source) (n : String) :
    hasGitNamed l n = false ↔ n ∉ gitNames l := by
  rw [← hasGitNamed_eq_mem_gitNames]
  cases h : hasGitNamed l n <;> simp

theorem hasGitNamed_of_getElem? {l : List Source} {i : Nat} {g : GitSource}
    (h : l[i]? = some (Source.git g)) : hasGitNamed l g.name = true :=
  (hasGitNamed_iff l g.name).mpr ⟨g, List.getElem?_mem h, rfl⟩

theorem foldl_lastGitStep_of_not_named (l : List Source) (n : String)
    (h : hasGitNamed l n = false) (acc : Option GitSource) :
    l.foldl (lastGitStep n) acc = acc := by
  induction l generalizing acc with
  | nil => rfl
  | cons s rest ih =>
    rw [hasGitNamed_cons, Bool.or_eq_false_iff] at h
    rw [List.foldl_cons]
    cases s with
    | git g =>
      have hne : g.name ≠ n := by simpa using h.1
      rw [show lastGitStep n acc (Source.git g) = acc from by
        simp [lastGitStep, hne]]
      exact ih h.2 acc
    | generator g => exact ih h.2 acc
    | template t => exact ih h.2 acc

theorem foldl_lastGitStep_getElem {l : List Source} {i : Nat} {g : GitSource}
    (hg : l[i]? = some (Source.git g))
    (hlast : hasGitNamed (l.drop (i + 1)) g.name = false) :
    ∀ acc, l.foldl (lastGitStep g.name) acc = some g := by
  induction l generalizing i with
  | nil => simp at hg
  | cons s rest ih =>
    intro acc
    rw [List.foldl_cons]
    cases i with
    | zero =>
      rw [List.getElem?_cons_zero] at hg
      injection hg with hs
      subst hs
      rw [List.drop_succ_cons, List.drop_zero] at hlast
      rw [show lastGitStep g.name acc (Source.git g) = some g from by
        simp [lastGitStep]]
      exact foldl_lastGitStep_of_not_named rest g.name hlast (some g)
    | succ i =>
      rw [List.getElem?_cons_succ] at hg
      rw [List.drop_succ_cons] at hlast
      exact ih hg hlast _

theorem lastGitNamed_getElem {l : List Source} {i : Nat} {g : GitSource}
    (hg : l[i]? = some (Source.git g))
    (hlast : hasGitNamed (l.drop (i + 1)) g.name = false) :
    lastGitNamed l g.name = some g :=
  foldl_lastGitStep_getElem hg hlast none

theorem gitNames_cons_git (g : GitSource) (l : List Source) :
    gitNames (Source.git g :: l) = g.name :: gitNames l := rfl

theorem not_later_of_nodup_gitNames {l : List Source}
    (h : (gitNames l).Nodup) {i : Nat} {g : GitSource}
    (hg : l[i]? = some (Source.git g)) :
    hasGitNamed (l.drop (i + 1)) g.name = false := by
  induction l generalizing i with
  | nil => simp at hg
  | cons s rest ih =>
    cases i with
    | zero =>
      rw [List.getElem?_cons_zero] at hg
      injection hg with hs
      subst hs
      rw [gitNames_cons_git, List.nodup_cons] at h
      rw [List.drop_succ_cons, List.drop_zero]
      exact (hasGitNamed_eq_false_iff rest g.name).mpr h.1
    | succ i =>
      rw [List.getElem?_cons_succ] at hg
      rw [List.drop_succ_cons]
      have h2 : (gitNames rest).Nodup := by
        cases s with
        | git g2 => exact (List.nodup_cons.mp (gitNames_cons_git g2 rest ▸ h)).2
        | generator g2 => exact h
        | template t2 => exact h
      exact ih h2 hg

/-! ### Pointwise characterization of the log assignment -/

theorem match_update_id_of_not_named {l : List Source} {name : String}
    (h : hasGitNamed l name = false) (t : String) (i : Nat)
    (P : Prop) [Decidable P] :
    (match l[i]? with
      | some (Source.git g) =>
        if g.name = name ∧ P then some (Source.git { g with log := t })
        else some (Source.git g)
      | o => o) = l[i]? := by
  cases hv : l[i]? with
  | none => rfl
  | some s =>
    cases s with
    | git g =>
      have hne : g.name ≠ name := by
        intro he
        have h2 := hasGitNamed_of_getElem? hv
        rw [he, h] at h2
        exact Bool.false_ne_true h2
      simp [hne]
    | generator g => rfl
    | template t2 => rfl

theorem setLogOnLastGit_getElem? (l : List Source) (name t : String) (i : Nat) :
    (setLogOnLastGit l name t)[i]? =
      match l[i]? with
      | some (Source.git g) =>
        if g.name = name ∧ hasGitNamed (l.drop (i + 1)) name = false then
          some (Source.git { g with log := t })
        else some (Source.git g)
      | o => o := by
  induction l generalizing i with
  | nil => cases i <;> rfl
  | cons s rest ih =>
    cases s with
    | git g =>
      by_cases hc : g.name = name ∧ hasGitNamed rest name = false
      · rw [show setLogOnLastGit (Source.git g :: rest) name t
            = Source.git { g with log := t } :: rest from by
          simp only [setLogOnLastGit]
          rw [if_pos hc]]
        cases i with
        | zero =>
          rw [List.getElem?_cons_zero, List.getElem?_cons_zero,
            List.drop_succ_cons, List.drop_zero]
          dsimp only
          rw [if_pos hc]
        | succ i =>
          rw [List.getElem?_cons_succ, List.getElem?_cons_succ,
            List.drop_succ_cons]
          exact (match_update_id_of_not_named hc.2 t i _).symm
      · rw [show setLogOnLastGit (Source.git g :: rest) name t
            = Source.git g :: setLogOnLastGit rest name t from by
          simp only [setLogOnLastGit]
          rw [if_neg hc]]
        cases i with
        | zero =>
          rw [List.getElem?_cons_zero, List.getElem?_cons_zero,
            List.drop_succ_cons, List.drop_zero]
          dsimp only
          rw [if_neg hc]
        | succ i =>
          rw [List.getElem?_cons_succ, List.getElem?_cons_succ,
            List.drop_succ_cons]
          exact ih i
    | generator g =>
      rw [show setLogOnLastGit (Source.generator g :: rest) name t
          = Source.generator g :: setLogOnLastGit rest name t from rfl]
      cases i with
      | zero =>
        rw [List.getElem?_cons_zero, List.getElem?_cons_zero]
      | succ i =>
        rw [List.getElem?_cons_succ, List.getElem?_cons_succ,
          List.drop_succ_cons]
        exact ih i
    | template t2 =>
      rw [show setLogOnLastGit (Source.template t2 :: rest) name t
          = Source.template t2 :: setLogOnLastGit rest name t from rfl]
      cases i with
      | zero =>
        rw [List.getElem?_cons_zero, List.getElem?_cons_zero]
      | succ i =>
        rw [List.getElem?_cons_succ, List.getElem?_cons_succ,
          List.drop_succ_cons]
        exact ih i

theorem hasGitNamed_setLogOnLastGit_drop (l : List Source) (name t : String)
    (k : Nat) (n : String) :
    hasGitNamed ((setLogOnLastGit l name t).drop k) n
      = hasGitNamed (l.drop k) n := by
  induction l generalizing k with
  | nil => rfl
  | cons s rest ih =>
    cases s with
    | git g =>
      by_cases hc : g.name = name ∧ hasGitNamed rest name = false
      · rw [show setLogOnLastGit (Source.git g :: rest) name t
            = Source.git { g with log := t } :: rest from by
          simp only [setLogOnLastGit]
          rw [if_pos hc]]
        cases k with
        | zero =>
          rw [List.drop_zero, List.drop_zero, hasGitNamed_cons, hasGitNamed_cons]
        | succ k =>
          rw [List.drop_succ_cons, List.drop_succ_cons]
      · rw [show setLogOnLastGit (Source.git g :: rest) name t
            = Source.git g :: setLogOnLastGit rest name t from by
          simp only [setLogOnLastGit]
          rw [if_neg hc]]
        cases k with
        | zero =>
          rw [List.drop_zero, List.drop_zero, hasGitNamed_cons, hasGitNamed_cons]
          have h0 := ih 0
          rw [List.drop_zero, List.drop_zero] at h0
          rw [h0]
        | succ k =>
          rw [List.drop_succ_cons, List.drop_succ_cons]
          exact ih k
    | generator g =>
      rw [show setLogOnLastGit (Source.generator g :: rest) name t
          = Source.generator g :: setLogOnLastGit rest name t from rfl]
      cases k with
      | zero =>
        rw [List.drop_zero, List.drop_zero, hasGitNamed_cons, hasGitNamed_cons]
        have h0 := ih 0
        rw [List.drop_zero, List.drop_zero] at h0
        rw [h0]
      | succ k =>
        rw [List.drop_succ_cons, List.drop_succ_cons]
        exact ih k
    | template t2 =>
      rw [show setLogOnLastGit (Source.template t2 :: rest) name t
          = Source.template t2 :: setLogOnLastGit rest name t from rfl]
      cases k with
      | zero =>
        rw [List.drop_zero, List.drop_zero, hasGitNamed_cons, hasGitNamed_cons]
        have h0 := ih 0
        rw [List.drop_zero, List.drop_zero] at h0
        rw [h0]
      | succ k =>
        rw [List.drop_succ_cons, List.drop_succ_cons]
        exact ih k

/-! ### Pointwise characterization of the append-logs loop -/

/-- What the append-logs loop does to one position of the sources list,
as a function of the element there: a git source whose name maps to an
entry of the new map gets its log set when the old sha and the mapped
local path are nonempty and it is the last occurrence of its name
(the predicate later says a later occurrence exists); everything else is
unchanged. -/
def log_entry_view (gitLog : String → String → String)
    (old_map es : List (String × GitSource)) (later : String → Bool) :
    Option Source → Option Source
  | some (Source.git g) =>
    (match dictGet es g.name with
      | some v =>
        if ((dictGet old_map g.name).getD {}).sha = "" ∨ v.local_path = ""
            ∨ later g.name = true then
          some (Source.git g)
        else
          some (Source.git { g with
            log := gitLog v.local_path (((dictGet old_map g.name).getD {}).sha) })
      | none => some (Source.git g))
  | o => o

theorem append_logs_loop_getElem? (gitLog : String → String → String)
    (old_map : List (String × GitSource)) (es : List (String × GitSource))
    (srcs : List Source) (hkeys : (es.map Prod.fst).Nodup) (i : Nat) :
    (append_logs_loop gitLog old_map es srcs)[i]? =
      log_entry_view gitLog old_map es
        (fun n => hasGitNamed (srcs.drop (i + 1)) n) srcs[i]? := by
  induction es generalizing srcs with
  | nil =>
    rw [show append_logs_loop gitLog old_map [] srcs = srcs from rfl]
    cases hv : srcs[i]? with
    | none => rfl
    | some s =>
      cases s with
      | git g => simp only [log_entry_view, dictGet_nil]
      | generator g => rfl
      | template t => rfl
  | cons e rest ih =>
    rw [List.map_cons, List.nodup_cons] at hkeys
    have hek : e.1 ∉ rest.map Prod.fst := hkeys.1
    have hkr : (rest.map Prod.fst).Nodup := hkeys.2
    by_cases hskip : ((dictGet old_map e.1).getD {}).sha = "" ∨ e.2.local_path = ""
    · rw [show append_logs_loop gitLog old_map (e :: rest) srcs
          = append_logs_loop gitLog old_map rest srcs from by
        rw [append_logs_loop]
        rw [if_pos hskip]]
      rw [ih srcs hkr]
      cases hv : srcs[i]? with
      | none => rfl
      | some s =>
        cases s with
        | git g =>
          simp only [log_entry_view]
          by_cases hgn : e.1 = g.name
          · rw [dictGet_cons, if_pos hgn,
              dictGet_eq_none_of_not_mem_keys rest g.name (hgn ▸ hek)]
            have hsk2 : ((dictGet old_map g.name).getD {}).sha = ""
                ∨ e.2.local_path = "" := hgn ▸ hskip
            simp only []
            rw [if_pos (Or.elim hsk2 Or.inl (fun h => Or.inr (Or.inl h)))]
          · rw [dictGet_cons, if_neg hgn]
        | generator g => rfl
        | template t => rfl
    · rw [show append_logs_loop gitLog old_map (e :: rest) srcs
          = append_logs_loop gitLog old_map rest
              (setLogOnLastGit srcs e.1
                (gitLog e.2.local_path (((dictGet old_map e.1).getD {}).sha)))
          from by
        rw [append_logs_loop]
        rw [if_neg hskip]]
      rw [ih _ hkr]
      rw [show (fun n => hasGitNamed
            ((setLogOnLastGit srcs e.1
              (gitLog e.2.local_path (((dictGet old_map e.1).getD {}).sha))).drop
                (i + 1)) n)
          = (fun n => hasGitNamed (srcs.drop (i + 1)) n) from by
        funext n
        exact hasGitNamed_setLogOnLastGit_drop srcs e.1 _ (i + 1) n]
      rw [setLogOnLastGit_getElem?]
      push_neg at hskip
      cases hv : srcs[i]? with
      | none => rfl
      | some s =>
        cases s with
        | git g =>
          simp only []
          by_cases hgn : g.name = e.1
          · by_cases hlater : hasGitNamed (srcs.drop (i + 1)) e.1 = false
            · rw [if_pos ⟨hgn, hlater⟩]
              simp only [log_entry_view]
              rw [hgn, dictGet_eq_none_of_not_mem_keys rest e.1 hek,
                dictGet_cons, if_pos rfl]
              simp only []
              rw [if_neg (by
                push_neg
                exact ⟨hskip.1, hskip.2, by simp [hlater]⟩)]
            · rw [if_neg (fun hand => hlater hand.2)]
              simp only [log_entry_view]
              rw [hgn, dictGet_eq_none_of_not_mem_keys rest e.1 hek,
                dictGet_cons, if_pos rfl]
              simp only []
              rw [if_pos (Or.inr (Or.inr (by
                cases hb : hasGitNamed (srcs.drop (i + 1)) e.1 with
                | true => rfl
                | false => exact absurd hb hlater)))]
          · rw [if_neg (fun hand => hgn hand.1)]
            simp only [log_entry_view]
            rw [dictGet_cons, if_neg (fun h => hgn h.symm)]
        | generator g => rfl
        | template t => rfl

theorem append_git_logs_sources_getElem? (gitLog : String → String → String)
    (old new_meta : Metadata) (i : Nat) :
    (_append_git_logs gitLog old new_meta).sources[i]? =
      log_entry_view gitLog (_get_git_source_map old) (_get_git_source_map new_meta)
        (fun n => hasGitNamed (new_meta.sources.drop (i + 1)) n)
        new_meta.sources[i]? :=
  append_logs_loop_getElem? gitLog _ _ _ (nodup_keys_git_source_map new_meta) i

/-! ### Claim theorems: git log appending -/

/-- Claim C7: at scope exit, every git source of the new snapshot whose
name matches an old git source with a nonempty recorded sha, and which
has a nonempty local path, gets its log field set to the commit log
between the old sha and the HEAD of its local path; when the matched old
source has no sha or the new source has no local path the source is left
unchanged, without error; non-git sources are untouched.  Matching is by
name through the source maps (for a duplicated name, the last occurrence,
which is the only case when the git names of the new snapshot are
distinct). -/
theorem append_git_logs_matched_sources (gitLog : String → String → String)
    (old new_meta : Metadata) (hnames : (gitNames new_meta.sources).Nodup) :
    (∀ (i : Nat) (g : GitSource), new_meta.sources[i]? = some (Source.git g) →
        ((lastGitNamed old.sources g.name).getD {}).sha ≠ "" →
        g.local_path ≠ "" →
        (_append_git_logs gitLog old new_meta).sources[i]? =
          some (Source.git { g with
            log := gitLog g.local_path
              (((lastGitNamed old.sources g.name).getD {}).sha) }))
    ∧ (∀ (i : Nat) (g : GitSource), new_meta.sources[i]? = some (Source.git g) →
        (((lastGitNamed old.sources g.name).getD {}).sha = "" ∨ g.local_path = "") →
        (_append_git_logs gitLog old new_meta).sources[i]? = some (Source.git g))
    ∧ (∀ (i : Nat) (s : Source), new_meta.sources[i]? = some s →
        (∀ g, s ≠ Source.git g) →
        (_append_git_logs gitLog old new_meta).sources[i]? = some s) := by
  have hmap : ∀ {i : Nat} {g : GitSource},
      new_meta.sources[i]? = some (Source.git g) →
      dictGet (_get_git_source_map new_meta) g.name = some g := by
    intro i g hv
    rw [dictGet_git_source_map]
    exact lastGitNamed_getElem hv (not_later_of_nodup_gitNames hnames hv)
  refine ⟨?_, ?_, ?_⟩
  · intro i g hv hsha hlp
    rw [append_git_logs_sources_getElem? gitLog old new_meta i, hv]
    simp only [log_entry_view]
    rw [hmap hv]
    simp only []
    rw [dictGet_git_source_map]
    rw [if_neg (by
      push_neg
      exact ⟨hsha, hlp, by simp [not_later_of_nodup_gitNames hnames hv]⟩)]
  · intro i g hv hor
    rw [append_git_logs_sources_getElem? gitLog old new_meta i, hv]
    simp only [log_entry_view]
    rw [hmap hv]
    simp only []
    rw [dictGet_git_source_map]
    rw [if_pos (Or.elim hor Or.inl (fun h => Or.inr (Or.inl h)))]
  · intro i s hv hsg
    rw [append_git_logs_sources_getElem? gitLog old new_meta i, hv]
    cases s with
    | git g => exact absurd rfl (hsg g)
    | generator g => rfl
    | template t => rfl

/-- Old snapshot for the C7 witness: one git source named repo with a
recorded sha. -/
def old_meta_w7 : Metadata :=
  { sources := [Source.git { name := "repo", sha := "H1" }] }

/-- New snapshot for the C7 witness: the same name, a new sha and a
local path. -/
def new_meta_w7 : Metadata :=
  { sources := [Source.git { name := "repo", sha := "H2", local_path := "/r" }] }

theorem append_git_logs_matched_sources_witness :
    (_append_git_logs (fun _ _ => "LOG") old_meta_w7 new_meta_w7).sources[0]? =
      some (Source.git { name := "repo", sha := "H2", local_path := "/r", log := "LOG" }) :=
  (append_git_logs_matched_sources (fun _ _ => "LOG") old_meta_w7 new_meta_w7
      (by decide)).1 0 { name := "repo", sha := "H2", local_path := "/r" }
    rfl (by decide) (by decide)

theorem append_logs_loop_congr_old (gitLog : String → String → String)
    (om1 om2 : List (String × GitSource))
    (h : ∀ n, dictGet om1 n = dictGet om2 n) (es : List (String × GitSource))
    (srcs : List Source) :
    append_logs_loop gitLog om1 es srcs = append_logs_loop gitLog om2 es srcs := by
  induction es generalizing srcs with
  | nil => rfl
  | cons e rest ih =>
    rw [append_logs_loop, append_logs_loop, h e.1]
    by_cases hskip : ((dictGet om2 e.1).getD {}).sha = "" ∨ e.2.local_path = ""
    · rw [if_pos hskip, if_pos hskip]
      exact ih srcs
    · rw [if_neg hskip, if_neg hskip]
      exact ih _

/-- Claim C10: when a snapshot holds several git sources with the same
name, the matching for log appending is last-wins: the appended log of a
name is computed from the sha of the last old occurrence (the result
depends on the old snapshot only through its last git source per name),
an earlier duplicate in the new snapshot is left unchanged, and the last
new occurrence is the one that receives the log. -/
theorem append_git_logs_last_occurrence_wins (gitLog : String → String → String)
    (old old2 new_meta : Metadata) :
    ((∀ n, lastGitNamed old.sources n = lastGitNamed old2.sources n) →
        _append_git_logs gitLog old new_meta = _append_git_logs gitLog old2 new_meta)
    ∧ (∀ (i j : Nat) (g g2 : GitSource), new_meta.sources[i]? = some (Source.git g) →
        new_meta.sources[j]? = some (Source.git g2) → i < j → g2.name = g.name →
        (_append_git_logs gitLog old new_meta).sources[i]? = some (Source.git g))
    ∧ (∀ (i : Nat) (g : GitSource), new_meta.sources[i]? = some (Source.git g) →
        hasGitNamed (new_meta.sources.drop (i + 1)) g.name = false →
        ((lastGitNamed old.sources g.name).getD {}).sha ≠ "" →
        g.local_path ≠ "" →
        (_append_git_logs gitLog old new_meta).sources[i]? =
          some (Source.git { g with
            log := gitLog g.local_path
              (((lastGitNamed old.sources g.name).getD {}).sha) })) := by
  refine ⟨?_, ?_, ?_⟩
  · intro h
    have h2 : ∀ n, dictGet (_get_git_source_map old) n
        = dictGet (_get_git_source_map old2) n := by
      intro n
      rw [dictGet_git_source_map, dictGet_git_source_map]
      exact h n
    unfold _append_git_logs
    rw [append_logs_loop_congr_old gitLog _ _ h2]
  · intro i j g g2 hvi hvj hij hname
    rw [append_git_logs_sources_getElem? gitLog old new_meta i, hvi]
    simp only [log_entry_view]
    have hlater : hasGitNamed (new_meta.sources.drop (i + 1)) g.name = true := by
      rw [hasGitNamed_iff]
      refine ⟨g2, ?_, hname⟩
      have hd : (new_meta.sources.drop (i + 1))[j - (i + 1)]?
          = some (Source.git g2) := by
        rw [List.getElem?_drop]
        rw [show i + 1 + (j - (i + 1)) = j from by omega]
        exact hvj
      exact List.getElem?_mem hd
    cases hmap : dictGet (_get_git_source_map new_meta) g.name with
    | none => rfl
    | some v =>
      simp only []
      rw [if_pos (Or.inr (Or.inr (by simp [hlater])))]
  · intro i g hv hlast hsha hlp
    rw [append_git_logs_sources_getElem? gitLog old new_meta i, hv]
    simp only [log_entry_view]
    have hmap : dictGet (_get_git_source_map new_meta) g.name = some g := by
      rw [dictGet_git_source_map]
      exact lastGitNamed_getElem hv hlast
    rw [hmap]
    simp only []
    rw [dictGet_git_source_map]
    rw [if_neg (by
      push_neg
      exact ⟨hsha, hlp, by simp [hlast]⟩)]

/-- Old snapshot for the C10 witness: two git sources named r, with shas
A then B. -/
def old_meta_w10 : Metadata :=
  { sources := [Source.git { name := "r", sha := "A" },
                Source.git { name := "r", sha := "B" }] }

/-- New snapshot for the C10 witness: two git sources named r, each with
a local path. -/
def new_meta_w10 : Metadata :=
  { sources := [Source.git { name := "r", sha := "H1", local_path := "/p" },
                Source.git { name := "r", sha := "H2", local_path := "/q" }] }

theorem append_git_logs_last_occurrence_wins_witness :
    (_append_git_logs (fun _ _ => "LOG") old_meta_w10 new_meta_w10).sources[0]? =
      some (Source.git { name := "r", sha := "H1", local_path := "/p" })
    ∧ (_append_git_logs (fun _ _ => "LOG") old_meta_w10 new_meta_w10).sources[1]? =
      some (Source.git { name := "r", sha := "H2", local_path := "/q", log := "LOG" }) :=
  ⟨(append_git_logs_last_occurrence_wins (fun _ _ => "LOG") old_meta_w10 old_meta_w10
      new_meta_w10).2.1 0 1 { name := "r", sha := "H1", local_path := "/p" }
      { name := "r", sha := "H2", local_path := "/q" } rfl rfl (by decide) rfl,
   (append_git_logs_last_occurrence_wins (fun _ _ => "LOG") old_meta_w10 old_meta_w10
      new_meta_w10).2.2 1 { name := "r", sha := "H2", local_path := "/q" }
      rfl (by decide) (by decide) (by decide)⟩

/-! ### Claim theorems: local paths never persisted -/

/-- Claim C8: on every scope exit the transient local_path of every git
source is cleared before the metadata is written, so the written
metadata never contains a git source with a nonempty local_path. -/
theorem written_metadata_has_no_local_paths (gitLog : String → String → String)
    (isIgnored : String → Bool) (track : Bool) (scanned : List String)
    (old current : Metadata) :
    ∀ g : GitSource,
      Source.git g ∈
        (tracker_exit_metadata gitLog isIgnored track scanned old current).sources →
      g.local_path = "" := by
  intro g hg
  unfold tracker_exit_metadata at hg
  simp only [_clear_local_paths, List.mem_map] at hg
  obtain ⟨s, -, hs⟩ := hg
  cases s with
  | git g2 =>
    injection hs with h2
    rw [← h2]
  | generator g2 => exact Source.noConfusion hs
  | template t2 => exact Source.noConfusion hs

/-- Current metadata for the C8 witness: a git source holding a local
filesystem path. -/
def current_meta_w8 : Metadata :=
  { sources := [Source.git { name := "x", local_path := "/secret" }] }

theorem written_metadata_has_no_local_paths_witness :
    ({ name := "x", local_path := "" } : GitSource).local_path = "" :=
  written_metadata_has_no_local_paths (fun _ _ => "") (fun _ => false) true []
    emptyMetadata current_meta_w8 { name := "x", local_path := "" } (by decide)

end Synthtool
